import Mathlib

/-!
Verification development for the Qolmat missing-data imputation toolkit.

Matrices with missing entries are embedded as lists of rows of `Option ℚ`
(`none` stands for the not-a-number sentinel), completed matrices as lists of
rows of `ℚ`.  The repository ships the tests of its RPCA and utility modules
but not the modules themselves; those operations are modelled from the
specification, with the concrete input-output pairs pinned by the tests used
to settle orientation questions the specification leaves open.  Operations
whose source is present (benchmark utilities, the imputer wrapper, the
evaluation loop) are translated directly.
-/

set_option linter.unusedVariables false

namespace Qolmat

/-- A dataframe / 2-D array with possibly missing entries: a list of rows. -/
abbrev DfO := List (List (Option ℚ))

/-- A completed (fully observed) matrix: a list of rows of rationals. -/
abbrev Mat := List (List ℚ)

/-- A numpy array argument that is either 1-D or 2-D, as accepted by
`prepare_data`. -/
inductive NpArray where
  | one (v : List (Option ℚ))
  | two (m : DfO)

/-- Row lengths of a list matrix; two matrices interact elementwise exactly
when their shapes agree. -/
def shapeOf (M : List (List α)) : List ℕ := M.map List.length

/-- Elementwise subtraction of two list matrices. -/
def msub (M N : Mat) : Mat := List.zipWith (List.zipWith (fun a b => a - b)) M N

/-- The all-zero matrix with the shape of `M`. -/
def zeroLike (M : List (List α)) : Mat := M.map (fun row => row.map (fun _ => 0))

/-- Modelled from the spec: the elementwise soft-thresholding shrinkage
operator, `sign(x) * max(|x| - lam, 0)`; the source module
`qolmat/imputations/rpca/rpca_utils.py` is absent from the repository
snapshot. -/
def softThreshold (lam x : ℚ) : ℚ :=
  if lam < x then x - lam else if x < -lam then x + lam else 0

/-- Soft-thresholding applied entrywise to a matrix. -/
def stMat (lam : ℚ) (M : Mat) : Mat := M.map (fun row => row.map (softThreshold lam))

/-- Three-way zip, used for mask-driven elementwise selection. -/
def zipWith3 (f : α → β → γ → δ) : List α → List β → List γ → List δ
  | a :: as, b :: bs, c :: cs => f a b c :: zipWith3 f as bs cs
  | _, _, _ => []

/-- Elementwise selection: where the boolean mask holds take the entry of the
first matrix, elsewhere the entry of the second. -/
def selectMat (Om : List (List Bool)) (A B : Mat) : Mat :=
  zipWith3 (zipWith3 (fun w a b => if w then a else b)) Om A B

/-- Sum of squares of all entries (squared Frobenius norm). -/
def frobSq (M : Mat) : ℚ := (M.map (fun row => (row.map (fun x => x * x)).sum)).sum

/-- Sum of absolute values of all entries (entrywise L1 norm). -/
def l1Norm (M : Mat) : ℚ := (M.map (fun row => (row.map (fun x => |x|)).sum)).sum

/-- Restrict a matrix to a boolean mask, zeroing the entries outside it. -/
def maskMat (Om : List (List Bool)) (M : Mat) : Mat :=
  zipWith3 (zipWith3 (fun w a _ => if w then a else 0)) Om M M

/-- The nearest observed entry of the row at an index less than or equal to
`j`, together with its index; `none` when every entry up to `j` is missing. -/
def lastObsLE (row : List (Option ℚ)) : ℕ → Option (ℕ × ℚ)
  | 0 => match row.get? 0 with
    | some (some v) => some (0, v)
    | _ => none
  | j + 1 => match row.get? (j + 1) with
    | some (some v) => some (j + 1, v)
    | _ => lastObsLE row j

/-- The first observed entry of the row at an index at least `j`, scanning at
most `fuel` positions; `none` when everything in that range is missing. -/
def firstObsFrom (row : List (Option ℚ)) : ℕ → ℕ → Option (ℕ × ℚ)
  | _, 0 => none
  | j, fuel + 1 => match row.get? j with
    | some (some v) => some (j, v)
    | _ => firstObsFrom row (j + 1) fuel

/-- Value of the interpolated row at position `j`: observed entries are kept
(the nearest observed index at or before `j` is then `j` itself), interior
missing entries are linearly interpolated between the nearest observed
neighbours, and boundary missing entries copy the nearest observed value. -/
def interpEntry (row : List (Option ℚ)) (j : ℕ) : ℚ :=
  match lastObsLE row j, firstObsFrom row (j + 1) (row.length - (j + 1)) with
  | some (jl, vl), some (jr, vr) =>
      vl + (vr - vl) * ((j : ℚ) - (jl : ℚ)) / ((jr : ℚ) - (jl : ℚ))
  | some (_, vl), none => vl
  | none, some (_, vr) => vr
  | none, none => 0

/-- Modelled from the spec: `linear_interpolation` of `qolmat/utils/utils.py`
(absent from the repository snapshot).  The specification text says
per-column interpolation, but the expected matrices of the shipped test
`test_utils_linear_interpolation` fix the orientation: each ROW is
interpolated across its missing entries, with boundary missing values filled
by the nearest observed value of the same row.  Rows with no observed entry
are left unspecified by both spec and tests; the model fills them with 0. -/
def linear_interpolation (X : DfO) : Mat :=
  X.map (fun row => (List.range row.length).map (fun j => interpEntry row j))

/-- Per-column interpolation, following the literal wording of the
specification sentence, stated for comparison with the behaviour the shipped
tests pin down.  Transposes, interpolates each line, transposes back. -/
def transposeO (M : DfO) : DfO :=
  (List.range ((M.head?.getD []).length)).map (fun j => M.filterMap (fun row => row.get? j))

/-- Column-wise variant of linear interpolation obtained by reading the
specification sentence literally. -/
def linearInterpolationColwise (X : DfO) : Mat :=
  (List.range ((transposeO X).head?.getD []).length).map
    (fun i => (transposeO X).map (fun col => interpEntry col i))

/-- One row of the period fold: entries `i*c` through `i*c + c - 1` of the
flattened signal, padded on the right with missing entries. -/
def foldRow (v : List (Option ℚ)) (c i : ℕ) : List (Option ℚ) :=
  (v.drop (i * c)).take c ++ List.replicate (c - ((v.drop (i * c)).take c).length) none

/-- Modelled from the spec and the shipped test `test_utils_prepare_data`:
fold a flat signal into `p` rows of `ceil(length / p)` entries each, padding
the tail with missing entries (the expected matrices of the test show
missing-value padding, row-major order, and `p` rows). -/
def foldSignal (v : List (Option ℚ)) (p : ℕ) : DfO :=
  (List.range p).map (fun i => foldRow v ((v.length + p - 1) / p) i)

/-- Modelled from the spec: `prepare_data` of `qolmat/utils/utils.py` (absent
from the repository snapshot).  A 2-D matrix with no period is returned
unchanged; a 2-D matrix with a period is flattened row-major and refolded
(behaviour fixed by the expected matrix `X_expected3` of the shipped test); a
1-D signal requires the period and is folded; a 1-D signal without a period
fails with the missing-configuration error. -/
def prepare_data (X : NpArray) (period : Option ℕ) : Except String DfO :=
  match X, period with
  | .one _, none => .error "period missing for a 1D signal"
  | .one v, some p => .ok (foldSignal v p)
  | .two M, none => .ok M
  | .two M, some p => .ok (foldSignal M.flatten p)

/-- Fill method accepted by `impute_nans`. -/
inductive FillMethod where
  | mean
  | median
  | zeros
deriving DecidableEq

/-- Observed entries of column `j` of a matrix with missing values. -/
def colObs (M : DfO) (j : ℕ) : List ℚ :=
  M.filterMap (fun row => (row.get? j).bind (fun o => o))

/-- Arithmetic mean of a list of rationals (0 on the empty list, a corner the
spec leaves open). -/
def meanQ (l : List ℚ) : ℚ := l.sum / (l.length : ℚ)

/-- Insert into a sorted list of rationals. -/
def insertQ (x : ℚ) : List ℚ → List ℚ
  | [] => [x]
  | y :: ys => if x ≤ y then x :: y :: ys else y :: insertQ x ys

/-- Insertion sort of a list of rationals. -/
def sortQ (l : List ℚ) : List ℚ := l.foldr insertQ []

/-- Median in the numpy sense: middle element of the sorted list for odd
length, average of the two middle elements for even length, 0 on the empty
list (a corner the spec leaves open). -/
def medianQ (l : List ℚ) : ℚ :=
  let s := sortQ l
  let n := s.length
  if n = 0 then 0
  else if n % 2 = 1 then (s.get? (n / 2)).getD 0
  else (((s.get? (n / 2 - 1)).getD 0) + ((s.get? (n / 2)).getD 0)) / 2

/-- The value used to replace a missing entry of column `j`. -/
def fillValue (M : DfO) (method : FillMethod) (j : ℕ) : ℚ :=
  match method with
  | .mean => meanQ (colObs M j)
  | .median => medianQ (colObs M j)
  | .zeros => 0

/-- Modelled from the spec: `impute_nans` of `qolmat/utils/utils.py` (absent
from the repository snapshot).  The specification text says row mean and row
median, but the expected matrices of the shipped test
`test_rpca_utils_impute_nans` fix the orientation: each missing entry is
replaced by the mean (or median) of the observed entries of its COLUMN, or by
zero; observed entries are kept. -/
def impute_nans (M : DfO) (method : FillMethod) : Mat :=
  M.map (fun row => (List.range row.length).map (fun j =>
    match row.get? j with
    | some (some v) => v
    | _ => fillValue M method j))

/-- Row-wise variant of `impute_nans` obtained by reading the specification
sentence literally (mean or median of the row of the entry), stated for comparison
with the behaviour the shipped tests pin down. -/
def rowFillValue (row : List (Option ℚ)) (method : FillMethod) : ℚ :=
  match method with
  | .mean => meanQ (row.filterMap (fun o => o))
  | .median => medianQ (row.filterMap (fun o => o))
  | .zeros => 0

/-- Claimed row-oriented form of `impute_nans`, following the literal wording
of the specification sentence. -/
def imputeNansRowwise (M : DfO) (method : FillMethod) : Mat :=
  M.map (fun row => (List.range row.length).map (fun j =>
    match row.get? j with
    | some (some v) => v
    | _ => rowFillValue row method))

/-- Observation mask of a matrix with missing entries: `true` where observed. -/
def omegaOf (X : DfO) : List (List Bool) := X.map (fun row => row.map Option.isSome)

/-- Modelled from the spec: the objective of the noisy RPCA variant with the
L2 norm and no temporal terms,
`1/2 ||Om (X - L - A)||_F^2 + tau ||L||_nuc + lam ||A||_1`
(`qolmat/imputations/rpca/rpca_noisy.py` is absent from the repository
snapshot).  The nuclear norm is a singular-value computation performed by the
external linear-algebra library and is passed in as `nuc`. -/
def rpcaCost (nuc : Mat → ℚ) (Om : List (List Bool)) (X L A : Mat) (lam tau : ℚ) : ℚ :=
  (1 / 2) * frobSq (maskMat Om (msub (msub X L) A)) + tau * nuc L + lam * l1Norm A

/-- Modelled from the spec: one alternating-minimization iteration of the
noisy RPCA variant without temporal terms.  `Xi` is the interpolated input and
`Om` the observation mask.  The low-rank update singular-value-thresholds the
residual `Xi - A` (the thresholding `svt` is an external singular-value
computation and is passed in); the anomaly update soft-thresholds the residual
`Xi - L` on observed entries and takes the fill implied by `L` (so that the
anomaly contributes nothing to the masked data-fit term) on missing entries,
the convention fixed by the shipped test `test_rpca_noisy_zero_lambda`, whose
expected anomaly matrix equals the interpolated input on the missing entry as
well. -/
def stepNoisy (svt : Mat → ℚ → Mat) (tau lam : ℚ) (Xi : Mat) (Om : List (List Bool))
    (st : Mat × Mat) : Mat × Mat :=
  let L := svt (msub Xi st.2) tau
  let A := selectMat Om (stMat lam (msub Xi L)) (msub Xi L)
  (L, A)

/-- Modelled from the spec: `RPCANoisy.decompose_rpca_signal`
(`qolmat/imputations/rpca/rpca_noisy.py` is absent from the repository
snapshot).  The input is reshaped by `prepare_data`, seeded by linear
interpolation with an all-zero anomaly matrix, iterated `k` times, and the
diagnostic cost check compares the realized cost against the all-zero initial
point: a violation beyond `tol` only sets the warning flag, and the result is
returned in every case — the only error path is the acceptance check of
`prepare_data`. -/
def decompose_rpca_signal (svt : Mat → ℚ → Mat) (nuc : Mat → ℚ) (tau lam tol : ℚ)
    (k : ℕ) (X : NpArray) (period : Option ℕ) : Except String (Mat × Mat × Bool) :=
  match prepare_data X period with
  | .error e => .error e
  | .ok X2 =>
    let Xi := linear_interpolation X2
    let Om := omegaOf X2
    let st := (stepNoisy svt tau lam Xi Om)^[k] (Xi, zeroLike Xi)
    let warned := decide
      (rpcaCost nuc Om Xi (zeroLike Xi) (zeroLike Xi) lam tau + tol < rpcaCost nuc Om Xi st.1 st.2 lam tau)
    .ok (st.1, st.2, warned)

/-! ### Benchmark utilities (`qolmat/benchmark/utils.py`) -/

/-- Shape of a dataframe, as compared by `df1.shape != df2.shape`. -/
def dfShape (d : DfO) : ℕ × List ℕ := (d.length, d.map List.length)

/-- Machine epsilon of a double-precision float, the `EPS` constant of
`qolmat/benchmark/utils.py`. -/
def EPS : ℚ := 1 / 2 ^ 52

/-- Mean of the observed entries of column `j` (`np.nanmean` along axis 0). -/
def nanColMean (d : DfO) (j : ℕ) : ℚ := meanQ (colObs d j)

/-- Variance of the observed entries of column `j` (population convention). -/
def nanColVar (d : DfO) (j : ℕ) : ℚ :=
  meanQ ((colObs d j).map (fun x => (x - nanColMean d j) * (x - nanColMean d j)))

/-- Rows of `d` in which both column `a` and column `b` are observed, as
pairs of values. -/
def pairObs (d : DfO) (a b : ℕ) : List (ℚ × ℚ) :=
  d.filterMap (fun row =>
    match (row.get? a).bind (fun o => o), (row.get? b).bind (fun o => o) with
    | some x, some y => some (x, y)
    | _, _ => none)

/-- Masked covariance of columns `a` and `b` (`np.ma.cov` with pairwise
deletion of missing entries, ddof 1). -/
def maskedCov (d : DfO) (a b : ℕ) : ℚ :=
  let ps := pairObs d a b
  let ma := meanQ (ps.map Prod.fst)
  let mb := meanQ (ps.map Prod.snd)
  (ps.map (fun p => (p.1 - ma) * (p.2 - mb))).sum / ((ps.length : ℚ) - 1)

/-- Masked covariance matrix of all column pairs. -/
def covMatrix (d : DfO) : Mat :=
  let c := (d.head?.getD []).length
  (List.range c).map (fun a => (List.range c).map (fun b => maskedCov d a b))

/-- Trace of a square list matrix. -/
def traceMat (M : Mat) : ℚ :=
  ((List.range M.length).map (fun i => (((M.get? i).getD []).get? i).getD 0)).sum

/-- Elementwise sum of two list matrices. -/
def madd (M N : Mat) : Mat := List.zipWith (List.zipWith (fun a b => a + b)) M N

/-- Scale a list matrix by a rational. -/
def mscale (c : ℚ) (M : Mat) : Mat := M.map (fun row => row.map (fun x => c * x))

/-- Matrix product of two list matrices. -/
def mmul (M N : Mat) : Mat :=
  M.map (fun row => (List.range ((N.head?.getD []).length)).map (fun j =>
    ((List.range row.length).map (fun t =>
      ((row.get? t).getD 0) * ((((N.get? t).getD []).get? j).getD 0))).sum))

/-- Normalisation step of `frechet_distance`: scale by the half-sum of the
standard deviations (plus `EPS`) and centre around the half-sum of the means,
column by column.  The standard deviation is a square-root computation of the
external numeric library, passed in as `sqrtq`. -/
def normalizeDf (sqrtq : ℚ → ℚ) (dA dB d : DfO) : DfO :=
  d.map (fun row => (List.range row.length).map (fun j =>
    (row.get? j).bind (fun o => o.map (fun x =>
      (x - (nanColMean dA j + nanColMean dB j) / 2) /
        ((sqrtq (nanColVar dA j) + sqrtq (nanColVar dB j) + EPS) / 2)))))

/-- Translation of `frechet_distance` (`qolmat/benchmark/utils.py`, lines
274-304).  Unequal shapes fail with the shape-mismatch error; otherwise the
distance `||mu_1 - mu_2||^2 + Tr(S_1 + S_2 - 2 (S_1 S_2)^(1/2))` is computed
and returned, divided by the row count when `normalized` is set.  The matrix
square root `scipy.linalg.sqrtm` and the scalar square root are external
numeric-library computations and are passed in as `sqrtm` and `sqrtq`. -/
def frechet_distance (sqrtm : Mat → Mat) (sqrtq : ℚ → ℚ) (df1 df2 : DfO)
    (normalized : Bool) : Except String ℚ :=
  if dfShape df1 ≠ dfShape df2 then .error "inputs have to be of same dimensions." else
  let dfTrue := if normalized then normalizeDf sqrtq df1 df2 df1 else df1
  let dfPred := if normalized then normalizeDf sqrtq df1 df2 df2 else df2
  let c := (dfTrue.head?.getD []).length
  let ssdiff := ((List.range c).map (fun j =>
    (nanColMean dfTrue j - nanColMean dfPred j) *
    (nanColMean dfTrue j - nanColMean dfPred j))).sum
  let sigmaTrue := covMatrix dfTrue
  let sigmaPred := covMatrix dfPred
  let covmean := sqrtm (mmul sigmaTrue sigmaPred)
  let dist := ssdiff + traceMat (madd (madd sigmaTrue sigmaPred) (mscale (-2) covmean))
  if normalized then .ok (dist / (dfTrue.length : ℚ)) else .ok dist

/-! ### Imputer wrapper (`qolmat/imputations/models.py`) with an explicit
object store, so that in-place mutation is observable in the model -/

/-- The heap of dataframe objects live during a call; references are indices
into it. -/
abbrev Store := List DfO

/-- Dereference; a dangling reference reads as the empty frame. -/
def readRef (s : Store) (r : ℕ) : DfO := (s.get? r).getD []

/-- Allocate a fresh object holding `d` and return its reference. -/
def alloc (s : Store) (d : DfO) : Store × ℕ := (s ++ [d], s.length)

/-- Overwrite the object behind `r` (an in-place pandas mutation). -/
def writeRef (s : Store) (r : ℕ) (d : DfO) : Store := s.set r d

/-- True when some entry of the frame is missing (`df.isna().any().any()`). -/
def hasNaN (d : DfO) : Bool := d.any (fun row => row.any Option.isNone)

/-- One row of `df.fillna(values)`: observed entries are kept, missing entries
take the value the fill frame offers at the same position, if any. -/
def fillnaRow (row : List (Option ℚ)) (vrow : List ℚ) : List (Option ℚ) :=
  (List.range row.length).map (fun j => ((row.get? j).getD none).orElse (fun _ => vrow.get? j))

/-- The pandas `df.fillna(values)`: a NEW frame, the receiver untouched. -/
def fillna (d : DfO) (vals : Mat) : DfO :=
  (List.range d.length).map (fun i => fillnaRow ((d.get? i).getD []) ((vals.get? i).getD []))

/-- Single-column projection `df[[col]]`, a fresh single-column frame. -/
def extractCol (d : DfO) (j : ℕ) : DfO := d.map (fun row => [((row.get? j).getD none)])

/-- Replace column `j` of `d` by the first column of `c` (the assignment
`df_imputed[col] = ...`, applied to the object in place by the caller). -/
def setCol (d : DfO) (j : ℕ) (c : DfO) : DfO :=
  (List.range d.length).map (fun i =>
    let row := (d.get? i).getD []
    (List.range row.length).map (fun t =>
      if t = j then (((c.get? i).getD []).get? 0).getD none else (row.get? t).getD none))

/-- Columns that contain a missing entry (`df.columns[df.isna().any()]`). -/
def colsWithNaN (d : DfO) : List ℕ :=
  (List.range ((d.head?.getD []).length)).filter (fun j =>
    d.any (fun row => ((row.get? j).getD none).isNone))

/-- Translation of `Imputer.impute_element` (`qolmat/imputations/models.py`,
lines 81-98, group-free path): copy the argument frame, obtain the imputation
values from the subclass hook `f` (a pure producer of fill values, as the
shipped subclasses are), and fill the missing entries of the copy — producing
a new frame, never touching the object passed in. -/
def impute_element (f : DfO → Mat) (s : Store) (rin : ℕ) : Store × ℕ :=
  let d := readRef s rin
  let p1 := alloc s d
  let vals := f (readRef p1.1 p1.2)
  let d2 := fillna (readRef p1.1 p1.2) vals
  alloc p1.1 d2

/-- Loop body of the columnwise branch of `Imputer.fit_transform`: build the
fresh single-column frame `df[[col]]`, impute it, and assign the result onto
column `col` of the accumulator frame (an in-place mutation of that object). -/
def fitTransformColStep (f : DfO → Mat) (rin rimp : ℕ) (s : Store) (j : ℕ) : Store :=
  let p1 := alloc s (extractCol (readRef s rin) j)
  let p2 := impute_element f p1.1 p1.2
  writeRef p2.1 rimp (setCol (readRef p2.1 rimp) j (readRef p2.1 p2.2))

/-- Translation of `Imputer.fit_transform` (`qolmat/imputations/models.py`,
lines 33-74).  In the columnwise branch the input frame is copied and each
column holding a missing entry is imputed from a fresh single-column
projection of the INPUT frame and written onto the copy; otherwise
`impute_element` runs on the whole frame.  If the outcome still holds a
missing entry the call fails with the assertion message and no reference is
returned; the store of live objects is returned in every case. -/
def fit_transform (f : DfO → Mat) (columnwise : Bool) (s : Store) (rin : ℕ) :
    Store × Except String ℕ :=
  let d := readRef s rin
  if columnwise then
    let p1 := alloc s d
    let s2 := (colsWithNaN d).foldl (fitTransformColStep f rin p1.2) p1.1
    if hasNaN (readRef s2 p1.2) then (s2, .error "Result of imputation contains NaN!")
    else (s2, .ok p1.2)
  else
    let p1 := impute_element f s rin
    if hasNaN (readRef p1.1 p1.2) then (p1.1, .error "Result of imputation contains NaN!")
    else (p1.1, .ok p1.2)

/-! ### Evaluation loop (`robust_pca/classes/evaluate_imputer.py`) -/

/-- Translation of the loop body ordering of `EvaluateImputor.scores_imputor`
(`robust_pca/classes/evaluate_imputer.py`, lines 45-65): the four score lists
are extended with the scores of the current resampled subset and the means of
the four lists are RETURNED from inside the loop body.  The masking of the
working signal and the imputation-and-scoring of a subset are the collaborator
calls of the body, passed in as `mask` and `score`. -/
def scoresLoop (mask : σ → τ → σ) (score : σ → τ → ℚ × ℚ × ℚ × ℚ) :
    σ → List τ → List ℚ × List ℚ × List ℚ × List ℚ → Option (ℚ × ℚ × ℚ × ℚ)
  | _, [], _ => none
  | t, sub :: _, acc =>
    let t2 := mask t sub
    let q := score t2 sub
    some (meanQ (acc.1 ++ [q.1]), meanQ (acc.2.1 ++ [q.2.1]),
          meanQ (acc.2.2.1 ++ [q.2.2.1]), meanQ (acc.2.2.2 ++ [q.2.2.2]))

/-- Translation of `EvaluateImputor.scores_imputor`: run the loop over the
resampled missing-entry subsets with empty accumulator lists. -/
def scores_imputor (mask : σ → τ → σ) (score : σ → τ → ℚ × ℚ × ℚ × ℚ)
    (signal : σ) (subsets : List τ) : Option (ℚ × ℚ × ℚ × ℚ) :=
  scoresLoop mask score signal subsets ([], [], [], [])

/-! ### Concrete data pinned by the shipped tests -/

/-- The entry at position `t` of the row is missing or out of range. -/
def notObs (row : List (Option ℚ)) (t : ℕ) : Prop := (row.get? t).getD none = none

/-- Missingness of an entry is decidable. -/
instance decidableNotObs (row : List (Option ℚ)) (t : ℕ) : Decidable (notObs row t) := by
  unfold notObs
  infer_instance

/-- The 5 by 5 matrix `X_incomplete` of `tests/utils/test_utils.py`. -/
def Xinc : DfO :=
  [[some 1, none, some 3, some 2, none],
   [some 7, some 2, none, some 1, some 1],
   [none, some 4, some 3, none, some 5],
   [none, some 4, some 3, some 5, some 5],
   [some 4, some 4, some 3, none, some 5]]

/-- The expected output of `test_utils_linear_interpolation` on `Xinc`. -/
def XexpInterp : Mat :=
  [[1, 2, 3, 2, 2],
   [7, 2, 3 / 2, 1, 1],
   [4, 4, 3, 4, 5],
   [4, 4, 3, 5, 5],
   [4, 4, 3, 4, 5]]

/-- The expected output `X_exp_mean` of `test_rpca_utils_impute_nans` on
`Xinc`, in exact arithmetic (the test writes `2.66666667` for `8/3`). -/
def XexpMean : Mat :=
  [[1, 7 / 2, 3, 2, 4],
   [7, 2, 3, 1, 1],
   [4, 4, 3, 8 / 3, 5],
   [4, 4, 3, 5, 5],
   [4, 4, 3, 8 / 3, 5]]

/-- The expected output `X_expected3` of `test_utils_prepare_data` on `Xinc`
with period 3. -/
def Xexp3 : DfO :=
  [[some 1, none, some 3, some 2, none, some 7, some 2, none, some 1],
   [some 1, none, some 4, some 3, none, some 5, none, some 4, some 3],
   [some 5, some 5, some 4, some 4, some 3, none, some 5, none, none]]

/-- The matrix `X_incomplete` of `tests/imputations/rpca/test_rpca_noisy.py`. -/
def Xinc22 : DfO := [[some 1, some 2], [some 3, none]]

/-- Decidable equality of fallible results, entry by entry. -/
instance exceptDecEq {ε α : Type _} [DecidableEq ε] [DecidableEq α] :
    DecidableEq (Except ε α)
  | .error e, .error f =>
    if h : e = f then .isTrue (by rw [h]) else .isFalse (by intro hh; cases hh; exact h rfl)
  | .error _, .ok _ => .isFalse (by intro h; cases h)
  | .ok _, .error _ => .isFalse (by intro h; cases h)
  | .ok a, .ok b =>
    if h : a = b then .isTrue (by rw [h]) else .isFalse (by intro hh; cases hh; exact h rfl)

/-! ### Small helper lemmas -/

theorem meanQ_singleton (x : ℚ) : meanQ [x] = x := by
  simp [meanQ]

/-! ### C10: the evaluation loop returns from inside its first iteration -/

/-- C10: `EvaluateImputor.scores_imputor` returns from inside the loop over
the resampled subsets after the first iteration, so for any nonempty subset
list (cv at least 1) the reported rmse, mae, mape and wmape means are the
scores of the first subset alone — the result does not depend on the
remaining subsets, which are never evaluated — and an empty subset list
produces no result at all. -/
theorem scores_imputor_first_subset_only (mask : σ → τ → σ)
    (score : σ → τ → ℚ × ℚ × ℚ × ℚ) (signal : σ) (s : τ) (rest : List τ) :
    scores_imputor mask score signal (s :: rest) = some (score (mask signal s) s) ∧
    scores_imputor mask score signal ([] : List τ) = none := by
  constructor
  · simp [scores_imputor, scoresLoop, meanQ_singleton]
  · rfl

/-! ### C9: the imputer wrapper never returns a frame with missing entries -/

/-- C9: whenever `Imputer.fit_transform` returns a result (rather than
failing with the assertion message), the returned frame holds no missing
entry: the final check guards every success path, for both the columnwise
and the whole-frame branch and for every subclass hook `f`. -/
theorem fit_transform_result_has_no_nans (f : DfO → Mat) (cw : Bool) (s : Store)
    (rin r : ℕ) (hok : (fit_transform f cw s rin).2 = Except.ok r) :
    hasNaN (readRef (fit_transform f cw s rin).1 r) = false := by
  unfold fit_transform at hok ⊢
  cases cw
  · simp only [Bool.false_eq_true, if_false] at hok ⊢
    by_cases h : hasNaN (readRef (impute_element f s rin).1 (impute_element f s rin).2) = true
    · simp [h] at hok
    · simp [h] at hok ⊢
      subst hok
      simpa using h
  · simp only [if_true] at hok ⊢
    by_cases h : hasNaN (readRef
        ((colsWithNaN (readRef s rin)).foldl
          (fitTransformColStep f rin (alloc s (readRef s rin)).2)
          (alloc s (readRef s rin)).1)
        (alloc s (readRef s rin)).2) = true
    · simp [h] at hok
    · simp [h] at hok ⊢
      subst hok
      simpa using h

/-- Witness for C9 at a concrete store: imputing the one-frame store whose
frame has no missing entry succeeds and the returned frame has none either. -/
theorem fit_transform_result_has_no_nans_witness :
    (fit_transform (fun _ => [[0]]) false [[[some 1]]] 0).2 = Except.ok 2 ∧
    hasNaN (readRef (fit_transform (fun _ => [[0]]) false [[[some 1]]] 0).1 2) = false := by
  constructor
  · rfl
  · exact fit_transform_result_has_no_nans (fun _ => [[0]]) false [[[some 1]]] 0 2 rfl

/-! ### C7: the Frechet distance checks shapes and only shapes -/

/-- C7: `frechet_distance` fails with the shape-mismatch error exactly when
the two frames differ in shape, and returns a scalar without failing on every
pair of equal-shaped frames, for any external square-root collaborators and
either normalisation mode. -/
theorem frechet_distance_shape_check (sqrtm : Mat → Mat) (sqrtq : ℚ → ℚ)
    (d1 d2 : DfO) (nz : Bool) :
    ((∃ q, frechet_distance sqrtm sqrtq d1 d2 nz = Except.ok q) ↔ dfShape d1 = dfShape d2) ∧
    (dfShape d1 ≠ dfShape d2 →
      frechet_distance sqrtm sqrtq d1 d2 nz =
        Except.error "inputs have to be of same dimensions.") := by
  constructor
  · constructor
    · rintro ⟨q, hq⟩
      by_contra hne
      unfold frechet_distance at hq
      rw [if_pos hne] at hq
      exact absurd hq (by simp)
    · intro h
      unfold frechet_distance
      rw [if_neg (fun hc => hc h)]
      cases nz <;> exact ⟨_, rfl⟩
  · intro hne
    unfold frechet_distance
    rw [if_pos hne]

/-- Witness for C7: a concrete unequal-shape pair fails with the
shape-mismatch message, and a concrete equal-shape pair returns a scalar. -/
theorem frechet_distance_shape_check_witness :
    frechet_distance (fun M => M) (fun q => q) [[some 1]] [] false =
      Except.error "inputs have to be of same dimensions." ∧
    ∃ q, frechet_distance (fun M => M) (fun q => q) [[some 1], [some 2]]
      [[some 3], [some 5]] true = Except.ok q := by
  constructor
  · exact (frechet_distance_shape_check (fun M => M) (fun q => q) [[some 1]] [] false).2
      (by decide)
  · exact (frechet_distance_shape_check (fun M => M) (fun q => q) [[some 1], [some 2]]
      [[some 3], [some 5]] true).1.mpr (by decide)

/-! ### C1: the noisy-RPCA cost check warns and never raises -/

/-- C1: on every input the noisy-RPCA optimizer accepts (inputs on which
`prepare_data` succeeds), `decompose_rpca_signal` returns its decomposition
with the diagnostic flag set exactly when the realized cost exceeds the cost
of the all-zero initial point by more than the tolerance: a violated cost
inequality only raises the warning flag, the result is still returned, and no
error is possible past the acceptance check. -/
theorem rpca_noisy_cost_check_warns_only (svt : Mat → ℚ → Mat) (nuc : Mat → ℚ)
    (tau lam tol : ℚ) (k : ℕ) (X : NpArray) (period : Option ℕ) (X2 : DfO)
    (hok : prepare_data X period = Except.ok X2) :
    ∃ L A, decompose_rpca_signal svt nuc tau lam tol k X period =
      Except.ok (L, A, decide
        (rpcaCost nuc (omegaOf X2) (linear_interpolation X2)
            (zeroLike (linear_interpolation X2)) (zeroLike (linear_interpolation X2))
            lam tau + tol <
          rpcaCost nuc (omegaOf X2) (linear_interpolation X2) L A lam tau)) := by
  unfold decompose_rpca_signal
  rw [hok]
  exact ⟨_, _, rfl⟩

/-- Witness for C1 at a concrete accepted input: the optimizer returns its
result together with the diagnostic flag. -/
theorem rpca_noisy_cost_check_warns_only_witness :
    ∃ L A, decompose_rpca_signal (fun M _ => M) (fun _ => 0) 0 0 0 1
        (NpArray.two [[some 1]]) none =
      Except.ok (L, A, decide
        (rpcaCost (fun _ => 0) (omegaOf [[some 1]]) (linear_interpolation [[some 1]])
            (zeroLike (linear_interpolation [[some 1]]))
            (zeroLike (linear_interpolation [[some 1]])) 0 0 + 0 <
          rpcaCost (fun _ => 0) (omegaOf [[some 1]]) (linear_interpolation [[some 1]])
            L A 0 0)) :=
  rpca_noisy_cost_check_warns_only (fun M _ => M) (fun _ => 0) 0 0 0 1
    (NpArray.two [[some 1]]) none [[some 1]] rfl

/-! ### Matrix algebra lemmas for the RPCA iteration -/

theorem rowSub_self (r : List ℚ) :
    List.zipWith (fun a b => a - b) r r = r.map (fun _ => (0 : ℚ)) := by
  induction r with
  | nil => rfl
  | cons x xs ih =>
    show (x - x) :: List.zipWith (fun a b => a - b) xs xs = (0 : ℚ) :: xs.map (fun _ => (0 : ℚ))
    rw [sub_self, ih]

theorem rowSub_zero (r : List ℚ) :
    List.zipWith (fun a b => a - b) r (r.map (fun _ => (0 : ℚ))) = r := by
  induction r with
  | nil => rfl
  | cons x xs ih =>
    show (x - 0) :: List.zipWith (fun a b => a - b) xs (xs.map (fun _ => (0 : ℚ))) = x :: xs
    rw [sub_zero, ih]

theorem rowSub_rowSub (r : List ℚ) : ∀ l : List ℚ, l.length = r.length →
    List.zipWith (fun a b => a - b) r (List.zipWith (fun a b => a - b) r l) = l := by
  induction r with
  | nil =>
    intro l hl
    rw [List.length_nil, List.length_eq_zero] at hl
    rw [hl]
    rfl
  | cons x xs ih =>
    intro l hl
    cases l with
    | nil => simp at hl
    | cons y ys =>
      simp only [List.length_cons, Nat.succ.injEq] at hl
      show (x - (x - y)) :: List.zipWith (fun a b => a - b) xs
        (List.zipWith (fun a b => a - b) xs ys) = y :: ys
      rw [sub_sub_cancel, ih ys hl]

theorem msub_self (M : Mat) : msub M M = zeroLike M := by
  induction M with
  | nil => rfl
  | cons r rs ih =>
    show List.zipWith (fun a b => a - b) r r :: msub rs rs
      = r.map (fun _ => (0 : ℚ)) :: zeroLike rs
    rw [rowSub_self, ih]

theorem msub_zeroLike (M : Mat) : msub M (zeroLike M) = M := by
  induction M with
  | nil => rfl
  | cons r rs ih =>
    show List.zipWith (fun a b => a - b) r (r.map (fun _ => (0 : ℚ))) :: msub rs (zeroLike rs)
      = r :: rs
    rw [rowSub_zero, ih]

theorem msub_msub (M : Mat) : ∀ L : Mat, shapeOf L = shapeOf M →
    msub M (msub M L) = L := by
  induction M with
  | nil =>
    intro L hL
    simp only [shapeOf, List.map_nil, List.map_eq_nil_iff] at hL
    rw [hL]
    rfl
  | cons r rs ih =>
    intro L hL
    cases L with
    | nil => simp [shapeOf] at hL
    | cons l ls =>
      simp only [shapeOf, List.map_cons, List.cons.injEq] at hL
      show List.zipWith (fun a b => a - b) r (List.zipWith (fun a b => a - b) r l)
          :: msub rs (msub rs ls) = l :: ls
      rw [rowSub_rowSub r l hL.1, ih ls hL.2]

theorem softThreshold_zero (x : ℚ) : softThreshold 0 x = x := by
  unfold softThreshold
  split_ifs with h1 h2
  · simp
  · simp
  · simp only [not_lt] at h1 h2
    rw [neg_zero] at h2
    linarith

theorem rowST_zero (r : List ℚ) : r.map (softThreshold 0) = r := by
  induction r with
  | nil => rfl
  | cons x xs ih =>
    show softThreshold 0 x :: xs.map (softThreshold 0) = x :: xs
    rw [softThreshold_zero, ih]

theorem stMat_zero (M : Mat) : stMat 0 M = M := by
  induction M with
  | nil => rfl
  | cons r rs ih =>
    show r.map (softThreshold 0) :: stMat 0 rs = r :: rs
    rw [rowST_zero, ih]

theorem zipWith3_same (ws : List Bool) : ∀ r : List ℚ, r.length = ws.length →
    zipWith3 (fun w a b => if w then a else b) ws r r = r := by
  induction ws with
  | nil =>
    intro r hr
    rw [List.length_nil, List.length_eq_zero] at hr
    rw [hr]
    rfl
  | cons w ws ih =>
    intro r hr
    cases r with
    | nil => rfl
    | cons x xs =>
      simp only [List.length_cons, Nat.succ.injEq] at hr
      show (if w then x else x) :: zipWith3 (fun w a b => if w then a else b) ws xs xs = x :: xs
      rw [ite_self, ih xs hr]

theorem selectMat_same (Om : List (List Bool)) : ∀ M : Mat, shapeOf M = shapeOf Om →
    selectMat Om M M = M := by
  induction Om with
  | nil =>
    intro M hM
    simp only [shapeOf, List.map_nil, List.map_eq_nil_iff] at hM
    rw [hM]
    rfl
  | cons w ws ih =>
    intro M hM
    cases M with
    | nil => rfl
    | cons r rs =>
      simp only [shapeOf, List.map_cons, List.cons.injEq] at hM
      show zipWith3 (fun w a b => if w then a else b) w r r :: selectMat ws rs rs = r :: rs
      rw [zipWith3_same w r hM.1, ih rs hM.2]

theorem shapeOf_map_length_eq {f : List α → List β}
    (h : ∀ row : List α, (f row).length = row.length) (M : List (List α)) :
    shapeOf (M.map f) = shapeOf M := by
  induction M with
  | nil => rfl
  | cons r rs ih =>
    show (f r).length :: shapeOf (rs.map f) = r.length :: shapeOf rs
    rw [h r, ih]

theorem shapeOf_interp (X : DfO) : shapeOf (linear_interpolation X) = shapeOf X := by
  unfold linear_interpolation
  exact shapeOf_map_length_eq (by simp) X

theorem shapeOf_omega (X : DfO) : shapeOf (omegaOf X) = shapeOf X := by
  unfold omegaOf
  exact shapeOf_map_length_eq (by simp) X

theorem shapeOf_zeroLike (M : List (List α)) : shapeOf (zeroLike M) = shapeOf M := by
  unfold zeroLike
  exact shapeOf_map_length_eq (by simp) M

theorem shapeOf_msub (M : Mat) : ∀ N : Mat, shapeOf N = shapeOf M →
    shapeOf (msub M N) = shapeOf M := by
  induction M with
  | nil => intro N _; rfl
  | cons r rs ih =>
    intro N hN
    cases N with
    | nil => simp [shapeOf] at hN
    | cons n ns =>
      simp only [shapeOf, List.map_cons, List.cons.injEq] at hN
      show (List.zipWith (fun a b => a - b) r n).length :: shapeOf (msub rs ns)
        = r.length :: shapeOf rs
      rw [List.length_zipWith, hN.1, min_self, ih ns hN.2]

theorem rowZero_congr (r : List α) : ∀ l : List β, l.length = r.length →
    l.map (fun _ => (0 : ℚ)) = r.map (fun _ => (0 : ℚ)) := by
  induction r with
  | nil =>
    intro l hl
    rw [List.length_nil, List.length_eq_zero] at hl
    rw [hl]
    rfl
  | cons x xs ih =>
    intro l hl
    cases l with
    | nil => simp at hl
    | cons y ys =>
      simp only [List.length_cons, Nat.succ.injEq] at hl
      show (0 : ℚ) :: ys.map (fun _ => (0 : ℚ)) = (0 : ℚ) :: xs.map (fun _ => (0 : ℚ))
      rw [ih ys hl]

theorem zeroLike_congr (M : List (List α)) : ∀ N : List (List β),
    shapeOf N = shapeOf M → zeroLike N = zeroLike M := by
  induction M with
  | nil =>
    intro N hN
    simp only [shapeOf, List.map_nil, List.map_eq_nil_iff] at hN
    rw [hN]
    rfl
  | cons r rs ih =>
    intro N hN
    cases N with
    | nil => simp [shapeOf] at hN
    | cons n ns =>
      simp only [shapeOf, List.map_cons, List.cons.injEq] at hN
      show n.map (fun _ => (0 : ℚ)) :: zeroLike ns = r.map (fun _ => (0 : ℚ)) :: zeroLike rs
      rw [rowZero_congr r n hN.1, ih ns hN.2]

/-- Reduction of `decompose_rpca_signal` on an accepted input: the optimizer
always returns the iterated pair and the diagnostic flag. -/
theorem decompose_eq (svt : Mat → ℚ → Mat) (nuc : Mat → ℚ) (tau lam tol : ℚ)
    (k : ℕ) (X : NpArray) (period : Option ℕ) (X2 : DfO)
    (hok : prepare_data X period = Except.ok X2) :
    decompose_rpca_signal svt nuc tau lam tol k X period =
      Except.ok
        (((stepNoisy svt tau lam (linear_interpolation X2) (omegaOf X2))^[k]
            (linear_interpolation X2, zeroLike (linear_interpolation X2))).1,
         ((stepNoisy svt tau lam (linear_interpolation X2) (omegaOf X2))^[k]
            (linear_interpolation X2, zeroLike (linear_interpolation X2))).2,
         decide
           (rpcaCost nuc (omegaOf X2) (linear_interpolation X2)
               (zeroLike (linear_interpolation X2)) (zeroLike (linear_interpolation X2))
               lam tau + tol <
             rpcaCost nuc (omegaOf X2) (linear_interpolation X2)
               ((stepNoisy svt tau lam (linear_interpolation X2) (omegaOf X2))^[k]
                 (linear_interpolation X2, zeroLike (linear_interpolation X2))).1
               ((stepNoisy svt tau lam (linear_interpolation X2) (omegaOf X2))^[k]
                 (linear_interpolation X2, zeroLike (linear_interpolation X2))).2
               lam tau)) := by
  unfold decompose_rpca_signal
  rw [hok]

/-- With both regularisation weights zero, the seeded state is a fixed point
of the alternating iteration: the low-rank part keeps the interpolated input
and the anomaly part stays zero. -/
theorem stepNoisy_fixed_tau_zero_lam_zero (svt : Mat → ℚ → Mat) (Xi : Mat)
    (Om : List (List Bool)) (hsvt : ∀ M, svt M 0 = M) (hsh : shapeOf Om = shapeOf Xi) :
    stepNoisy svt 0 0 Xi Om (Xi, zeroLike Xi) = (Xi, zeroLike Xi) := by
  unfold stepNoisy
  simp only [hsvt, msub_zeroLike, msub_self, stMat_zero]
  rw [selectMat_same Om (zeroLike Xi) (by rw [shapeOf_zeroLike, hsh])]

/-! ### C2: the noisy variant with zero weights returns the interpolation -/

/-- C2: on every accepted input, the noisy RPCA variant run with `tau = 0`
and `lam = 0` (L2 data-fit norm) returns the linearly interpolated input as
the low-rank part and the all-zero matrix as the anomaly part, exactly (hence
within the 1e-4 tolerance of the shipped test), for every iteration count and
every singular-value-thresholding collaborator that is the identity at
threshold zero. -/
theorem rpca_noisy_tau_zero_lam_zero (svt : Mat → ℚ → Mat) (nuc : Mat → ℚ)
    (tol : ℚ) (k : ℕ) (X : NpArray) (period : Option ℕ) (X2 : DfO)
    (hsvt : ∀ M, svt M 0 = M) (hok : prepare_data X period = Except.ok X2) :
    ∃ w, decompose_rpca_signal svt nuc 0 0 tol k X period =
      Except.ok (linear_interpolation X2, zeroLike (linear_interpolation X2), w) := by
  have hfix := stepNoisy_fixed_tau_zero_lam_zero svt (linear_interpolation X2)
    (omegaOf X2) hsvt (by rw [shapeOf_omega, shapeOf_interp])
  have h2 := decompose_eq svt nuc 0 0 tol k X period X2 hok
  rw [Function.iterate_fixed hfix k] at h2
  exact ⟨_, h2⟩

unseal Rat.add Rat.mul Rat.inv Rat.sub in
/-- Concrete evaluation of the interpolation of the 2 by 2 test matrix. -/
theorem interp_Xinc22 : linear_interpolation Xinc22 = [[1, 2], [3, 3]] := by decide

/-- Witness for C2 at the concrete scenario of the shipped test
`test_rpca_noisy_zero_tau_zero_lambda`: for `X = [[1,2],[3,NaN]]` the noisy
variant with zero weights returns `L = [[1,2],[3,3]]` and `A = 0`, with the
entrywise soft-thresholding operator standing in for the external
singular-value thresholding (it is the identity at threshold zero, which is
all the theorem asks of it). -/
theorem rpca_noisy_tau_zero_lam_zero_witness :
    ∃ w, decompose_rpca_signal (fun M t => stMat t M) l1Norm 0 0 0 5
        (NpArray.two Xinc22) none =
      Except.ok ([[1, 2], [3, 3]], [[0, 0], [0, 0]], w) := by
  obtain ⟨w, hw⟩ := rpca_noisy_tau_zero_lam_zero (fun M t => stMat t M) l1Norm 0 5
    (NpArray.two Xinc22) none Xinc22 (fun M => stMat_zero M) rfl
  refine ⟨w, ?_⟩
  rw [hw]
  have h1 : linear_interpolation Xinc22 = [[1, 2], [3, 3]] := interp_Xinc22
  rw [h1]
  rfl

/-! ### C3: the noisy variant with zero sparsity weight sends L to zero -/

/-- With `lam = 0`, one iteration from any state whose anomaly part has the
input shape thresholds the adjusted residual and re-absorbs the remainder
into the anomaly part. -/
theorem stepNoisy_lam_zero (svt : Mat → ℚ → Mat) (tau : ℚ) (Xi : Mat)
    (Om : List (List Bool)) (L A : Mat)
    (hshape : ∀ M t, shapeOf (svt M t) = shapeOf M)
    (hOm : shapeOf Om = shapeOf Xi) (hA : shapeOf A = shapeOf Xi) :
    stepNoisy svt tau 0 Xi Om (L, A) =
      (svt (msub Xi A) tau, msub Xi (svt (msub Xi A) tau)) := by
  have hL : shapeOf (svt (msub Xi A) tau) = shapeOf Xi := by
    rw [hshape]
    exact shapeOf_msub Xi A hA
  unfold stepNoisy
  simp only [stMat_zero]
  rw [selectMat_same Om (msub Xi (svt (msub Xi A) tau))
    (by rw [hOm]; exact shapeOf_msub Xi _ hL)]

theorem svtIter_shape (svt : Mat → ℚ → Mat) (tau : ℚ) (Xi : Mat)
    (hshape : ∀ M t, shapeOf (svt M t) = shapeOf M) :
    ∀ j, shapeOf ((fun M => svt M tau)^[j] Xi) = shapeOf Xi := by
  intro j
  induction j with
  | zero => rfl
  | succ j ih =>
    rw [Function.iterate_succ_apply']
    rw [hshape]
    exact ih

/-- After at least one iteration with `lam = 0`, the state is the iterated
thresholding of the interpolated input together with the complementary
anomaly part. -/
theorem stepNoisy_iterate_lam_zero (svt : Mat → ℚ → Mat) (tau : ℚ) (Xi : Mat)
    (Om : List (List Bool)) (hshape : ∀ M t, shapeOf (svt M t) = shapeOf M)
    (hOm : shapeOf Om = shapeOf Xi) :
    ∀ j, (stepNoisy svt tau 0 Xi Om)^[j + 1] (Xi, zeroLike Xi) =
      ((fun M => svt M tau)^[j + 1] Xi,
        msub Xi ((fun M => svt M tau)^[j + 1] Xi)) := by
  intro j
  induction j with
  | zero =>
    rw [Function.iterate_one, Function.iterate_one]
    rw [stepNoisy_lam_zero svt tau Xi Om Xi (zeroLike Xi) hshape hOm (shapeOf_zeroLike Xi)]
    rw [msub_zeroLike]
  | succ j ih =>
    rw [Function.iterate_succ_apply', ih]
    rw [stepNoisy_lam_zero svt tau Xi Om _ _ hshape hOm
      (shapeOf_msub Xi _ (svtIter_shape svt tau Xi hshape (j + 1)))]
    rw [msub_msub Xi _ (svtIter_shape svt tau Xi hshape (j + 1))]
    rw [Function.iterate_succ_apply' (fun M => svt M tau) (j + 1) Xi]

/-- The spectral bound decays by `tau` at each thresholding step. -/
theorem svtIter_norm_decay (svt : Mat → ℚ → Mat) (sN : Mat → ℚ) (tau : ℚ)
    (Xi : Mat) (hshrink : ∀ M t, sN (svt M t) ≤ max (sN M - t) 0) (htau : 0 ≤ tau) :
    ∀ j, sN ((fun M => svt M tau)^[j] Xi) ≤ max (sN Xi - (j : ℚ) * tau) 0 := by
  intro j
  induction j with
  | zero =>
    simp only [Function.iterate_zero, id_eq, Nat.cast_zero, zero_mul, sub_zero]
    exact le_max_left _ _
  | succ j ih =>
    rw [Function.iterate_succ_apply']
    refine le_trans (hshrink _ tau) (max_le ?_ (le_max_right _ _))
    rcases max_cases (sN Xi - (j : ℚ) * tau) 0 with ⟨he, _⟩ | ⟨he, _⟩
    · rw [he] at ih
      refine le_trans ?_ (le_max_left _ _)
      push_cast
      linarith
    · rw [he] at ih
      refine le_trans ?_ (le_max_right _ _)
      linarith

/-- C3: on every accepted input and for every positive `tau`, the noisy RPCA
variant run with `lam = 0` returns the all-zero matrix as the low-rank part
and the linearly interpolated input as the anomaly part (exactly, hence
within the tolerance of the shipped test), provided the iteration budget `k`
covers the decay of the spectral bound (`sN Xi <= k * tau`, the modelled
analogue of running the bounded loop to convergence), for every thresholding
collaborator `svt` that is shape-preserving, shrinks the spectral bound `sN`
by its threshold, and collapses a matrix whose bound is below the threshold
to zero. -/
theorem rpca_noisy_lam_zero (svt : Mat → ℚ → Mat) (sN : Mat → ℚ) (nuc : Mat → ℚ)
    (tau tol : ℚ) (k : ℕ) (X : NpArray) (period : Option ℕ) (X2 : DfO)
    (hshape : ∀ M t, shapeOf (svt M t) = shapeOf M)
    (hcollapse : ∀ M t, sN M ≤ t → svt M t = zeroLike M)
    (hshrink : ∀ M t, sN (svt M t) ≤ max (sN M - t) 0)
    (htau : 0 < tau) (hk : 1 ≤ k)
    (hsuff : sN (linear_interpolation X2) ≤ (k : ℚ) * tau)
    (hok : prepare_data X period = Except.ok X2) :
    ∃ w, decompose_rpca_signal svt nuc tau 0 tol k X period =
      Except.ok (zeroLike (linear_interpolation X2), linear_interpolation X2, w) := by
  obtain ⟨j, rfl⟩ : ∃ j, k = j + 1 := ⟨k - 1, by omega⟩
  have hzero : (fun M => svt M tau)^[j + 1] (linear_interpolation X2) =
      zeroLike (linear_interpolation X2) := by
    rw [Function.iterate_succ_apply']
    rw [hcollapse _ tau ?bound]
    · exact zeroLike_congr _ _ (svtIter_shape svt tau _ hshape j)
    case bound =>
      refine le_trans (svtIter_norm_decay svt sN tau _ hshrink (le_of_lt htau) j) ?_
      refine max_le ?_ (le_of_lt htau)
      push_cast at hsuff ⊢
      linarith
  have h2 := decompose_eq svt nuc tau 0 tol (j + 1) X period X2 hok
  rw [stepNoisy_iterate_lam_zero svt tau (linear_interpolation X2) (omegaOf X2)
    hshape (by rw [shapeOf_omega, shapeOf_interp]) j] at h2
  rw [hzero, msub_zeroLike] at h2
  exact ⟨_, h2⟩

unseal Rat.add Rat.mul Rat.inv Rat.sub in
/-- Witness for C3 at the concrete scenario of the shipped test
`test_rpca_noisy_zero_lambda`: for `X = [[1,2],[3,NaN]]` and a positive
threshold the decomposition returns `L = 0` and `A` equal to the
interpolation `[[1,2],[3,3]]`; the thresholding collaborator instantiated
here collapses every matrix to zero and its spectral bound is identically
zero, which satisfies all three collaborator hypotheses. -/
theorem rpca_noisy_lam_zero_witness :
    ∃ w, decompose_rpca_signal (fun M _ => zeroLike M) l1Norm 1 0 0 1
        (NpArray.two Xinc22) none =
      Except.ok ([[0, 0], [0, 0]], [[1, 2], [3, 3]], w) := by
  obtain ⟨w, hw⟩ := rpca_noisy_lam_zero (fun M _ => zeroLike M) (fun _ => 0) l1Norm
    1 0 1 (NpArray.two Xinc22) none Xinc22
    (fun M t => shapeOf_zeroLike M)
    (fun M t _ => rfl)
    (fun M t => by
      refine le_trans (le_of_eq rfl) (le_max_right _ _))
    (by norm_num) (le_refl 1)
    (by rw [interp_Xinc22]; norm_num)
    rfl
  refine ⟨w, ?_⟩
  rw [hw, interp_Xinc22]
  rfl

/-! ### Store lemmas for the imputer wrapper -/

theorem readRef_append (s : Store) (d : List DfO) (r : ℕ) (h : r < s.length) :
    readRef (s ++ d) r = readRef s r := by
  unfold readRef
  rw [List.get?_append h]

theorem readRef_set_ne (s : Store) (r q : ℕ) (d : DfO) (h : q ≠ r) :
    readRef (writeRef s r d) q = readRef s q := by
  unfold readRef writeRef
  rw [List.get?_set_ne _ _ (fun hh => h hh.symm)]

theorem readRef_concat_self (s : Store) (d : DfO) : readRef (s ++ [d]) s.length = d := by
  unfold readRef
  rw [List.get?_concat_length]
  rfl

/-- The store effect of `impute_element`: two fresh objects are appended (the
copy of the argument and the filled result) and the reference of the second
one is returned; no existing object is touched. -/
theorem impute_element_eq (f : DfO → Mat) (s : Store) (r : ℕ) :
    impute_element f s r =
      (s ++ [readRef s r, fillna (readRef s r) (f (readRef s r))], s.length + 1) := by
  simp only [impute_element, alloc]
  rw [readRef_concat_self]
  simp [List.append_assoc]

/-- The store effect of one columnwise loop step: objects visible before the
step and distinct from the accumulator frame are untouched, and the store
only grows. -/
theorem fitTransformColStep_preserves (f : DfO → Mat) (rin rimp : ℕ) (sAcc : Store)
    (j q : ℕ) (hq : q < sAcc.length) (hne : q ≠ rimp) :
    readRef (fitTransformColStep f rin rimp sAcc j) q = readRef sAcc q ∧
    sAcc.length ≤ (fitTransformColStep f rin rimp sAcc j).length := by
  simp only [fitTransformColStep, alloc]
  rw [impute_element_eq]
  constructor
  · rw [readRef_set_ne _ _ _ _ hne]
    rw [readRef_append _ _ _ (by simp only [List.length_append, List.length_singleton]; omega)]
    rw [readRef_append _ _ _ hq]
  · unfold writeRef
    rw [List.length_set]
    simp only [List.length_append, List.length_cons, List.length_singleton]
    omega

/-- The columnwise loop preserves every object allocated before it other than
the accumulator frame, and never shrinks the store. -/
theorem foldColSteps_preserves (f : DfO → Mat) (rin rimp : ℕ) :
    ∀ (cols : List ℕ) (sAcc : Store) (q : ℕ), q < sAcc.length → q ≠ rimp →
    readRef (cols.foldl (fitTransformColStep f rin rimp) sAcc) q = readRef sAcc q ∧
    sAcc.length ≤ (cols.foldl (fitTransformColStep f rin rimp) sAcc).length := by
  intro cols
  induction cols with
  | nil => intro sAcc q hq _; exact ⟨rfl, le_refl _⟩
  | cons c cs ih =>
    intro sAcc q hq hne
    have h1 := fitTransformColStep_preserves f rin rimp sAcc c q hq hne
    have h2 := ih (fitTransformColStep f rin rimp sAcc c) q (lt_of_lt_of_le hq h1.2) hne
    exact ⟨by rw [List.foldl_cons, h2.1, h1.1], by rw [List.foldl_cons]; omega⟩

/-! ### C8: no operation mutates the frame of the caller -/

/-- C8: `Imputer.fit_transform` (and the `impute_element` at its core) never
mutates the frame supplied by the caller: for every valid input reference, both branches of
the wrapper leave the object behind it bit-for-bit intact in the resulting
store — every pandas mutation in the code hits a freshly allocated copy — and
any returned reference is a new allocation, distinct from the input. -/
theorem fit_transform_input_not_mutated (f : DfO → Mat) (cw : Bool) (s : Store)
    (rin : ℕ) (hin : rin < s.length) :
    readRef (fit_transform f cw s rin).1 rin = readRef s rin ∧
    (∀ r, (fit_transform f cw s rin).2 = Except.ok r → r ≠ rin ∧ s.length ≤ r) := by
  unfold fit_transform
  cases cw
  · simp only [Bool.false_eq_true, if_false]
    rw [impute_element_eq]
    constructor
    · by_cases h : hasNaN (readRef
          (s ++ [readRef s rin, fillna (readRef s rin) (f (readRef s rin))])
          (s.length + 1)) = true
      · simp only [h, if_true]
        exact readRef_append s _ rin hin
      · simp only [h, Bool.false_eq_true, if_false]
        exact readRef_append s _ rin hin
    · intro r hr
      by_cases h : hasNaN (readRef
          (s ++ [readRef s rin, fillna (readRef s rin) (f (readRef s rin))])
          (s.length + 1)) = true
      · simp [h] at hr
      · simp only [h, Bool.false_eq_true, if_false] at hr
        cases hr
        refine ⟨by omega, by omega⟩
  · simp only [if_true]
    have hrimp : (alloc s (readRef s rin)).2 = s.length := rfl
    have hlen : (alloc s (readRef s rin)).1.length = s.length + 1 := by
      unfold alloc; simp
    have hpres := foldColSteps_preserves f rin (alloc s (readRef s rin)).2
      (colsWithNaN (readRef s rin)) (alloc s (readRef s rin)).1 rin
      (by rw [hlen]; omega) (by rw [hrimp]; omega)
    have hread : readRef (alloc s (readRef s rin)).1 rin = readRef s rin := by
      unfold alloc
      exact readRef_append s _ rin hin
    constructor
    · by_cases h : hasNaN (readRef
          ((colsWithNaN (readRef s rin)).foldl
            (fitTransformColStep f rin (alloc s (readRef s rin)).2)
            (alloc s (readRef s rin)).1)
          (alloc s (readRef s rin)).2) = true
      · simp only [h, if_true]
        rw [hpres.1, hread]
      · simp only [h, Bool.false_eq_true, if_false]
        rw [hpres.1, hread]
    · intro r hr
      by_cases h : hasNaN (readRef
          ((colsWithNaN (readRef s rin)).foldl
            (fitTransformColStep f rin (alloc s (readRef s rin)).2)
            (alloc s (readRef s rin)).1)
          (alloc s (readRef s rin)).2) = true
      · simp [h] at hr
      · simp only [h, Bool.false_eq_true, if_false] at hr
        cases hr
        rw [hrimp]
        refine ⟨by omega, by omega⟩

/-- Witness for C8 at a concrete store whose frame holds a missing entry, so
the columnwise loop really runs: the input object is intact afterwards. -/
theorem fit_transform_input_not_mutated_witness :
    readRef (fit_transform (fun _ => [[5, 5]]) true [[[some 1, none]]] 0).1 0
      = [[some 1, none]] ∧
    (fit_transform (fun _ => [[5, 5]]) true [[[some 1, none]]] 0).2 = Except.ok 1 := by
  constructor
  · have h := (fit_transform_input_not_mutated (fun _ => [[5, 5]]) true
      [[[some 1, none]]] 0 (by decide)).1
    rw [h]
    rfl
  · rfl

/-! ### Index lemmas for the data-preparation utilities -/

theorem get?_range_map (f : ℕ → α) (n j : ℕ) (h : j < n) :
    ((List.range n).map f).get? j = some (f j) := by
  rw [List.get?_map, List.get?_range h]
  rfl

theorem get?_replicate (a : α) (n m : ℕ) (h : m < n) :
    (List.replicate n a).get? m = some a := by
  rw [List.get?_eq_getElem?, List.getElem?_replicate]
  simp [h]

theorem lt_length_of_get? (l : List α) (n : ℕ) (a : α) (h : l.get? n = some a) :
    n < l.length := by
  by_contra hc
  rw [List.get?_eq_none.2 (by omega)] at h
  cases h

theorem notObs_of_oob (row : List (Option ℚ)) (t : ℕ) (h : row.length ≤ t) :
    notObs row t := by
  unfold notObs
  rw [List.get?_eq_none.2 h]
  rfl

/-- Unfolding equation of the backward scan at a successor index. -/
theorem lastObsLE_succ_eq (row : List (Option ℚ)) (j : ℕ) :
    lastObsLE row (j + 1) = match row.get? (j + 1) with
      | some (some v) => some (j + 1, v)
      | _ => lastObsLE row j := rfl

/-- Unfolding equation of the forward scan with positive fuel. -/
theorem firstObsFrom_succ_eq (row : List (Option ℚ)) (j fuel : ℕ) :
    firstObsFrom row j (fuel + 1) = match row.get? j with
      | some (some v) => some (j, v)
      | _ => firstObsFrom row (j + 1) fuel := rfl

/-- The scan below `j` really returns the nearest observed entry: at an
observed position it returns that position. -/
theorem lastObsLE_self (row : List (Option ℚ)) (j : ℕ) (v : ℚ)
    (h : row.get? j = some (some v)) : lastObsLE row j = some (j, v) := by
  cases j with
  | zero => unfold lastObsLE; rw [h]
  | succ j => unfold lastObsLE; rw [h]

/-- Characterisation of the backward scan: if `jl` is observed, lies at or
before `j`, and every position strictly between `jl` and `j` is missing, the
scan stops at `jl`. -/
theorem lastObsLE_mid (row : List (Option ℚ)) (jl : ℕ) (vl : ℚ)
    (hobs : row.get? jl = some (some vl)) :
    ∀ j, jl ≤ j → (∀ t, jl < t → t ≤ j → notObs row t) →
    lastObsLE row j = some (jl, vl) := by
  intro j
  induction j with
  | zero =>
    intro hle _
    have : jl = 0 := by omega
    subst this
    exact lastObsLE_self row 0 vl hobs
  | succ j ih =>
    intro hle hmid
    by_cases hj : jl = j + 1
    · subst hj
      exact lastObsLE_self row (j + 1) vl hobs
    · have hle2 : jl ≤ j := by omega
      have hm := hmid (j + 1) (by omega) (le_refl _)
      unfold notObs at hm
      have htail : lastObsLE row (j + 1) = lastObsLE row j := by
        cases hg : row.get? (j + 1) with
        | none => rw [lastObsLE_succ_eq, hg]
        | some o =>
          rw [hg] at hm
          simp only [Option.getD_some] at hm
          subst hm
          rw [lastObsLE_succ_eq, hg]
      rw [htail]
      exact ih hle2 (fun t ht1 ht2 => hmid t ht1 (by omega))

/-- If everything at or before `j` is missing, the backward scan fails. -/
theorem lastObsLE_none (row : List (Option ℚ)) :
    ∀ j, (∀ t, t ≤ j → notObs row t) → lastObsLE row j = none := by
  intro j
  induction j with
  | zero =>
    intro hall
    have hm := hall 0 (le_refl _)
    unfold notObs at hm
    unfold lastObsLE
    cases hg : row.get? 0 with
    | none => rfl
    | some o =>
      rw [hg] at hm
      simp only [Option.getD_some] at hm
      subst hm
      rfl
  | succ j ih =>
    intro hall
    have hm := hall (j + 1) (le_refl _)
    unfold notObs at hm
    have htail : lastObsLE row (j + 1) = lastObsLE row j := by
      cases hg : row.get? (j + 1) with
      | none => rw [lastObsLE_succ_eq, hg]
      | some o =>
        rw [hg] at hm
        simp only [Option.getD_some] at hm
        subst hm
        rw [lastObsLE_succ_eq, hg]
    rw [htail]
    exact ih (fun t ht => hall t (by omega))

/-- Characterisation of the forward scan: if `jr` is observed, lies in the
scanned window, and every position of the window before it is missing, the
scan stops at `jr`. -/
theorem firstObsFrom_hit (row : List (Option ℚ)) (jr : ℕ) (vr : ℚ)
    (hobs : row.get? jr = some (some vr)) :
    ∀ (fuel start : ℕ), start ≤ jr → jr < start + fuel →
    (∀ t, start ≤ t → t < jr → notObs row t) →
    firstObsFrom row start fuel = some (jr, vr) := by
  intro fuel
  induction fuel with
  | zero =>
    intro start h1 h2 _
    omega
  | succ fuel ih =>
    intro start h1 h2 hmid
    by_cases hs : start = jr
    · subst hs
      unfold firstObsFrom
      rw [hobs]
    · have hlt : start < jr := by omega
      have hm := hmid start (le_refl _) hlt
      unfold notObs at hm
      have htail : firstObsFrom row start (fuel + 1) = firstObsFrom row (start + 1) fuel := by
        cases hg : row.get? start with
        | none => rw [firstObsFrom_succ_eq, hg]
        | some o =>
          rw [hg] at hm
          simp only [Option.getD_some] at hm
          subst hm
          rw [firstObsFrom_succ_eq, hg]
      rw [htail]
      exact ih (start + 1) (by omega) (by omega) (fun t ht1 ht2 => hmid t (by omega) ht2)

/-- If the whole scanned window is missing, the forward scan fails. -/
theorem firstObsFrom_none (row : List (Option ℚ)) :
    ∀ (fuel start : ℕ), (∀ t, start ≤ t → t < start + fuel → notObs row t) →
    firstObsFrom row start fuel = none := by
  intro fuel
  induction fuel with
  | zero => intro start _; rfl
  | succ fuel ih =>
    intro start hall
    have hm := hall start (le_refl _) (by omega)
    unfold notObs at hm
    have htail : firstObsFrom row start (fuel + 1) = firstObsFrom row (start + 1) fuel := by
      cases hg : row.get? start with
      | none => rw [firstObsFrom_succ_eq, hg]
      | some o =>
        rw [hg] at hm
        simp only [Option.getD_some] at hm
        subst hm
        rw [firstObsFrom_succ_eq, hg]
    rw [htail]
    exact ih (start + 1) (fun t ht1 ht2 => hall t (by omega) (by omega))

/-- An observed entry is returned unchanged by the row interpolation. -/
theorem interpEntry_observed (row : List (Option ℚ)) (j : ℕ) (v : ℚ)
    (h : row.get? j = some (some v)) : interpEntry row j = v := by
  unfold interpEntry
  rw [lastObsLE_self row j v h]
  cases hf : firstObsFrom row (j + 1) (row.length - (j + 1)) with
  | none => rfl
  | some p =>
    obtain ⟨jr, vr⟩ := p
    show v + (vr - v) * ((j : ℚ) - (j : ℚ)) / ((jr : ℚ) - (j : ℚ)) = v
    rw [sub_self]
    simp

/-- A missing entry flanked by observed neighbours is linearly interpolated
between the nearest ones. -/
theorem interpEntry_interior (row : List (Option ℚ)) (j jl jr : ℕ) (vl vr : ℚ)
    (hjl : row.get? jl = some (some vl)) (hjr : row.get? jr = some (some vr))
    (h1 : jl ≤ j) (h2 : j < jr) (hmid : ∀ t, jl < t → t < jr → notObs row t) :
    interpEntry row j = vl + (vr - vl) * ((j : ℚ) - (jl : ℚ)) / ((jr : ℚ) - (jl : ℚ)) := by
  have hlen : jr < row.length := lt_length_of_get? row jr _ hjr
  unfold interpEntry
  rw [lastObsLE_mid row jl vl hjl j h1 (fun t ht1 ht2 => hmid t ht1 (by omega))]
  rw [firstObsFrom_hit row jr vr hjr (row.length - (j + 1)) (j + 1) (by omega) (by omega)
    (fun t ht1 ht2 => hmid t (by omega) ht2)]

/-- A missing entry with no observed entry before it copies the nearest
observed value after it. -/
theorem interpEntry_bfill (row : List (Option ℚ)) (j jr : ℕ) (vr : ℚ)
    (hall : ∀ t, t ≤ j → notObs row t) (h2 : j < jr)
    (hjr : row.get? jr = some (some vr))
    (hmid : ∀ t, j < t → t < jr → notObs row t) :
    interpEntry row j = vr := by
  have hlen : jr < row.length := lt_length_of_get? row jr _ hjr
  unfold interpEntry
  rw [lastObsLE_none row j hall]
  rw [firstObsFrom_hit row jr vr hjr (row.length - (j + 1)) (j + 1) (by omega) (by omega)
    (fun t ht1 ht2 => hmid t (by omega) ht2)]

/-- A missing entry with no observed entry after it copies the nearest
observed value before it. -/
theorem interpEntry_ffill (row : List (Option ℚ)) (j jl : ℕ) (vl : ℚ)
    (hjl : row.get? jl = some (some vl)) (h1 : jl ≤ j)
    (hmid : ∀ t, jl < t → t ≤ j → notObs row t)
    (hall : ∀ t, j < t → t < row.length → notObs row t) :
    interpEntry row j = vl := by
  unfold interpEntry
  rw [lastObsLE_mid row jl vl hjl j h1 hmid]
  rw [firstObsFrom_none row (row.length - (j + 1)) (j + 1) (fun t ht1 ht2 => by
    by_cases hin : t < row.length
    · exact hall t (by omega) hin
    · exact notObs_of_oob row t (by omega))]

/-! ### C5: linear interpolation runs along rows, not columns -/

unseal Rat.add Rat.mul Rat.inv Rat.sub in
/-- C5 counterexample: on the 5 by 5 matrix of the shipped test
`test_utils_linear_interpolation`, the modelled `linear_interpolation`
reproduces the expected matrix of the test exactly, while the per-column
reading of the specification sentence produces a different matrix — the
claim, as stated (per-column interpolation), is false on this input. -/
theorem linear_interpolation_not_columnwise :
    linear_interpolation Xinc = XexpInterp ∧
    linearInterpolationColwise Xinc ≠ XexpInterp ∧
    linearInterpolationColwise Xinc ≠ linear_interpolation Xinc := by
  refine ⟨by decide, by decide, by decide⟩

/-- C5 (amended to the row orientation the shipped test pins down):
`linear_interpolation` interpolates each row of the matrix at every position:
the returned entry at `(i, j)` is `interpEntry row j`, where an observed
entry is returned unchanged; a missing entry with observed entries on both
sides is linearly interpolated between the nearest observed neighbours; a
missing entry before the first observed entry copies the nearest observed
value to its right; and a missing entry after the last observed entry copies
the nearest observed value to its left. -/
theorem linear_interpolation_rowwise (X : DfO) (i j : ℕ) (row : List (Option ℚ))
    (hrow : X.get? i = some row) (hj : j < row.length) :
    ((linear_interpolation X).get? i).bind (fun r => r.get? j) =
      some (interpEntry row j) ∧
    (∀ v, row.get? j = some (some v) → interpEntry row j = v) ∧
    (∀ jl vl jr vr, row.get? jl = some (some vl) → row.get? jr = some (some vr) →
      jl ≤ j → j < jr → (∀ t, jl < t → t < jr → notObs row t) →
      interpEntry row j = vl + (vr - vl) * ((j : ℚ) - (jl : ℚ)) / ((jr : ℚ) - (jl : ℚ))) ∧
    (∀ jr vr, (∀ t, t ≤ j → notObs row t) → j < jr → row.get? jr = some (some vr) →
      (∀ t, j < t → t < jr → notObs row t) → interpEntry row j = vr) ∧
    (∀ jl vl, jl ≤ j → row.get? jl = some (some vl) →
      (∀ t, jl < t → t ≤ j → notObs row t) →
      (∀ t, j < t → t < row.length → notObs row t) → interpEntry row j = vl) := by
  refine ⟨?_, ?_, ?_, ?_, ?_⟩
  · unfold linear_interpolation
    rw [List.get?_map, hrow]
    show ((List.range row.length).map (fun j => interpEntry row j)).get? j
      = some (interpEntry row j)
    rw [get?_range_map _ _ _ hj]
  · intro v hv
    exact interpEntry_observed row j v hv
  · intro jl vl jr vr hjl hjr h1 h2 hmid
    exact interpEntry_interior row j jl jr vl vr hjl hjr h1 h2 hmid
  · intro jr vr hall h2 hjr hmid
    exact interpEntry_bfill row j jr vr hall h2 hjr hmid
  · intro jl vl h1 hjl hmid hall
    exact interpEntry_ffill row j jl vl hjl h1 hmid hall

/-- Witness for C5 on the first and third rows of the shipped test matrix:
an interior missing entry is interpolated (entry `(0,1)` becomes `2`), a
trailing missing entry is forward-filled (entry `(0,4)` becomes `2`), a
leading missing entry is backward-filled (entry `(2,0)` becomes `4`), and an
observed entry is kept (entry `(0,0)` stays `1`). -/
theorem linear_interpolation_rowwise_witness :
    ((linear_interpolation Xinc).get? 0).bind (fun r => r.get? 1) = some 2 ∧
    ((linear_interpolation Xinc).get? 0).bind (fun r => r.get? 4) = some 2 ∧
    ((linear_interpolation Xinc).get? 2).bind (fun r => r.get? 0) = some 4 ∧
    ((linear_interpolation Xinc).get? 0).bind (fun r => r.get? 0) = some 1 := by
  have row0 : Xinc.get? 0 = some [some 1, none, some 3, some 2, none] := rfl
  have row2 : Xinc.get? 2 = some [none, some 4, some 3, none, some 5] := rfl
  have h01 := linear_interpolation_rowwise Xinc 0 1 _ row0 (by decide)
  have h04 := linear_interpolation_rowwise Xinc 0 4 _ row0 (by decide)
  have h20 := linear_interpolation_rowwise Xinc 2 0 _ row2 (by decide)
  have h00 := linear_interpolation_rowwise Xinc 0 0 _ row0 (by decide)
  refine ⟨?_, ?_, ?_, ?_⟩
  · rw [h01.1]
    have he := h01.2.2.1 0 1 2 3 (by decide) (by decide) (by omega) (by omega)
      (fun t ht1 ht2 => by
        have : t = 1 := by omega
        subst this
        decide)
    rw [he]
    norm_num
  · rw [h04.1]
    have he := h04.2.2.2.2 3 2 (by omega) (by decide)
      (fun t ht1 ht2 => by
        have : t = 4 := by omega
        subst this
        decide)
      (fun t ht1 ht2 => by
        simp only [List.length_cons, List.length_nil] at ht2
        omega)
    rw [he]
  · rw [h20.1]
    have he := h20.2.2.2.1 1 4
      (fun t ht => by
        have : t = 0 := by omega
        subst this
        decide)
      (by omega) (by decide)
      (fun t ht1 ht2 => by omega)
    rw [he]
  · rw [h00.1]
    have he := h00.2.1 1 (by decide)
    rw [he]

/-! ### C6: missing entries are filled with column statistics, not row ones -/

unseal Rat.add Rat.mul Rat.inv Rat.sub in
/-- C6 counterexample: on the 5 by 5 matrix of the shipped test
`test_rpca_utils_impute_nans` with the mean method, the modelled
`impute_nans` reproduces the expected matrix of the test exactly (the entry
at `(0,1)` becomes `7/2`, the mean of column 1), while the row-mean reading
of the specification sentence produces a different matrix (that entry would
become `2`, the mean of row 0) — the claim, as stated (row statistics), is
false on this input. -/
theorem impute_nans_not_rowwise :
    impute_nans Xinc FillMethod.mean = XexpMean ∧
    imputeNansRowwise Xinc FillMethod.mean ≠ XexpMean ∧
    ((impute_nans Xinc FillMethod.mean).get? 0).bind (fun r => r.get? 1) = some (7 / 2) ∧
    ((imputeNansRowwise Xinc FillMethod.mean).get? 0).bind (fun r => r.get? 1) = some 2 := by
  refine ⟨by decide, by decide, by decide, by decide⟩

/-- C6 (amended to the column orientation the shipped test pins down):
`impute_nans` keeps every observed entry unchanged and replaces a missing
entry at `(i, j)` according to the method: the mean of the observed entries
of column `j`, the median of the observed entries of column `j`, or the
constant zero. -/
theorem impute_nans_colwise (M : DfO) (method : FillMethod) (i j : ℕ)
    (row : List (Option ℚ)) (hrow : M.get? i = some row) (hj : j < row.length) :
    (∀ v, row.get? j = some (some v) →
      ((impute_nans M method).get? i).bind (fun r => r.get? j) = some v) ∧
    (row.get? j = some none →
      ((impute_nans M method).get? i).bind (fun r => r.get? j) =
        some (match method with
          | .mean => meanQ (colObs M j)
          | .median => medianQ (colObs M j)
          | .zeros => 0)) := by
  have hplumb : ((impute_nans M method).get? i).bind (fun r => r.get? j) =
      some (match row.get? j with
        | some (some v) => v
        | _ => fillValue M method j) := by
    unfold impute_nans
    rw [List.get?_map, hrow]
    show ((List.range row.length).map _).get? j = _
    rw [get?_range_map _ _ _ hj]
  constructor
  · intro v hv
    rw [hplumb, hv]
  · intro hv
    rw [hplumb, hv]
    cases method <;> rfl

/-- Witness for C6 on the shipped test matrix: the missing entry `(0,1)` is
replaced by the mean of the observed entries of column 1, which evaluates to
`7/2` (the `3.5` of the test), and the observed entry `(0,0)` is kept. -/
theorem impute_nans_colwise_witness :
    ((impute_nans Xinc FillMethod.mean).get? 0).bind (fun r => r.get? 1) =
      some (meanQ (colObs Xinc 1)) ∧
    ((impute_nans Xinc FillMethod.mean).get? 0).bind (fun r => r.get? 0) = some 1 := by
  have row0 : Xinc.get? 0 = some [some 1, none, some 3, some 2, none] := rfl
  have h := impute_nans_colwise Xinc FillMethod.mean 0 1 _ row0 (by decide)
  have h2 := impute_nans_colwise Xinc FillMethod.mean 0 0 _ row0 (by decide)
  exact ⟨h.2 (by decide), h2.1 1 (by decide)⟩

/-! ### C4: prepare_data refolds a 2-D matrix when a period is given -/

/-- C4 counterexample: on the 5 by 5 matrix of the shipped test
`test_utils_prepare_data` with period 3, `prepare_data` does NOT return the
matrix unchanged — it flattens it and refolds it into the 3 by 9
missing-padded matrix the test expects — so the claim, as stated (the period
argument is ignored on 2-D input), is false on this input. -/
theorem prepare_data_period_not_ignored :
    prepare_data (NpArray.two Xinc) (some 3) ≠ Except.ok Xinc ∧
    prepare_data (NpArray.two Xinc) (some 3) = Except.ok Xexp3 := by
  refine ⟨by decide, by decide⟩

/-- C4 (amended): a 2-D matrix with the period omitted is returned
unchanged; a 1-D signal with the period omitted fails with the
missing-configuration error; and when a period `p` is given the flat signal
(or the row-major flattening of the 2-D matrix) is refolded into `p` rows of
`ceil(n/p)` entries, the entry at `(i, j)` of the fold being entry `i*c + j`
of the flat signal, with positions past its end padded as missing. -/
theorem prepare_data_amended :
    (∀ M : DfO, prepare_data (NpArray.two M) none = Except.ok M) ∧
    (∀ v, prepare_data (NpArray.one v) none =
      Except.error "period missing for a 1D signal") ∧
    (∀ v p, prepare_data (NpArray.one v) (some p) = Except.ok (foldSignal v p)) ∧
    (∀ M p, prepare_data (NpArray.two M) (some p) =
      Except.ok (foldSignal M.flatten p)) ∧
    (∀ (v : List (Option ℚ)) (p i j : ℕ), i < p → j < (v.length + p - 1) / p →
      ((foldSignal v p).get? i).bind (fun r => r.get? j) =
        some ((v.get? (i * ((v.length + p - 1) / p) + j)).getD none)) := by
  refine ⟨fun M => rfl, fun v => rfl, fun v p => rfl, fun M p => rfl, ?_⟩
  intro v p i j hi hj
  unfold foldSignal
  rw [get?_range_map _ _ _ hi]
  show (foldRow v ((v.length + p - 1) / p) i).get? j = _
  unfold foldRow
  have hlen : ((v.drop (i * ((v.length + p - 1) / p))).take ((v.length + p - 1) / p)).length
      = min ((v.length + p - 1) / p) (v.length - i * ((v.length + p - 1) / p)) := by
    rw [List.length_take, List.length_drop]
  by_cases hcase : j <
      ((v.drop (i * ((v.length + p - 1) / p))).take ((v.length + p - 1) / p)).length
  · rw [List.get?_append hcase, List.get?_take (by omega), List.get?_drop]
    have hin : i * ((v.length + p - 1) / p) + j < v.length := by omega
    cases hv : v.get? (i * ((v.length + p - 1) / p) + j) with
    | none =>
      have := List.get?_eq_none.1 hv
      omega
    | some o => rfl
  · rw [List.get?_append_right (by omega)]
    rw [get?_replicate _ _ _ (by omega)]
    have hout : v.length ≤ i * ((v.length + p - 1) / p) + j := by omega
    rw [List.get?_eq_none.2 hout]
    rfl

/-- Witness for C4: the 1-D signal of the shipped test (`[1,4,NaN,3,2]`,
period 2, fold width 3) places entry 4 of the signal at position `(1,1)` of
the fold and pads position `(1,2)` as missing; a concrete 2-D matrix with no
period is returned unchanged, and a 1-D signal with no period fails. -/
theorem prepare_data_amended_witness :
    prepare_data (NpArray.two Xinc) none = Except.ok Xinc ∧
    prepare_data (NpArray.one [some 1, some 4, none, some 3, some 2]) none =
      Except.error "period missing for a 1D signal" ∧
    ((foldSignal [some 1, some 4, none, some 3, some 2] 2).get? 1).bind
      (fun r => r.get? 1) = some (some 2) ∧
    ((foldSignal [some 1, some 4, none, some 3, some 2] 2).get? 1).bind
      (fun r => r.get? 2) = some none := by
  refine ⟨prepare_data_amended.1 Xinc,
    prepare_data_amended.2.1 [some 1, some 4, none, some 3, some 2], ?_, ?_⟩
  · have h := prepare_data_amended.2.2.2.2 [some 1, some 4, none, some 3, some 2]
      2 1 1 (by omega) (by decide)
    rw [h]
    rfl
  · have h := prepare_data_amended.2.2.2.2 [some 1, some 4, none, some 3, some 2]
      2 1 2 (by omega) (by decide)
    rw [h]
    rfl
